import Mathlib

/-
Verification of the English_writing repository's core:
the AI-response generation/validation/retry pipeline, the JSON response
extractor, the schema validators, the word-bank operations and the
evaluation prompt builder.

Machine integers and floats are idealised: JSON numbers are modelled as
rationals (Python's json module would additionally accept NaN/Infinity
literals, which have no rational counterpart and play no role here).
-/

namespace EW

/-- JSON whitespace accepted by the Python json module scanner:
space, tab, newline, carriage return. -/
def jsonWs (c : Char) : Bool :=
  c = ' ' || c = '\t' || c = '\n' || c = '\r'

/-- Characters matched by the regex class \s (ASCII range) as used by the
re module in parse_json_response's patterns. -/
def reWs (c : Char) : Bool :=
  c = ' ' || c = '\t' || c = '\n' || c = '\r' || c = '\x0b' || c = '\x0c'

/-- The backtick character (code 96). -/
def btick : Char := Char.ofNat 96

/-- Parsed JSON values, as produced by Python's json.loads.
Objects keep their members in insertion order; Python dict semantics
(later assignment to the same key wins) are recovered by lookupKey. -/
inductive Json where
  | null
  | bool (b : Bool)
  | num (q : ℚ)
  | str (s : String)
  | arr (items : List Json)
  | obj (members : List (String × Json))

/-- Python dict lookup on an object's member list: the last binding of a
key wins, mirroring how json.loads builds a dict. -/
def lookupKey (m : List (String × Json)) (k : String) : Option Json :=
  (m.reverse.find? (fun p => p.1 == k)).map (fun p => p.2)

/-- Python's `k in data` membership test for an object. -/
def keyMem (m : List (String × Json)) (k : String) : Bool :=
  m.any (fun p => p.1 == k)

/-- Single-character JSON string escapes (Python json strict table). -/
def escChar (c : Char) : Option Char :=
  if c = '"' then some '"'
  else if c = '\\' then some '\\'
  else if c = '/' then some '/'
  else if c = 'b' then some '\x08'
  else if c = 'f' then some '\x0c'
  else if c = 'n' then some '\n'
  else if c = 'r' then some '\r'
  else if c = 't' then some '\t'
  else none

/-- Hexadecimal digit value, for \uXXXX escapes. -/
def hexVal (c : Char) : Option Nat :=
  if c.isDigit then some (c.toNat - 48)
  else if 'a' ≤ c ∧ c ≤ 'f' then some (c.toNat - 87)
  else if 'A' ≤ c ∧ c ≤ 'F' then some (c.toNat - 55)
  else none

/-- Body of a JSON string after the opening quote: returns the decoded
string and the input remaining after the closing quote.  Raw control
characters are rejected (strict mode), unknown escapes are rejected.
Surrogate pairing of \u escapes is idealised through Char.ofNat. -/
def parseStringBody : List Char → List Char → Option (String × List Char)
  | [], _ => none
  | c :: rest, acc =>
    if c = '"' then some (String.mk acc.reverse, rest)
    else if c = '\\' then
      match rest with
      | [] => none
      | e :: rest2 =>
        if e = 'u' then
          match rest2 with
          | h1 :: h2 :: h3 :: h4 :: rest3 =>
            match hexVal h1, hexVal h2, hexVal h3, hexVal h4 with
            | some a, some b, some c2, some d =>
              parseStringBody rest3 (Char.ofNat (((a * 16 + b) * 16 + c2) * 16 + d) :: acc)
            | _, _, _, _ => none
          | _ => none
        else
          match escChar e with
          | some ec => parseStringBody rest2 (ec :: acc)
          | none => none
    else if c.toNat < 32 then none
    else parseStringBody rest (c :: acc)

/-- Digits to a natural number. -/
def digitsToNat (ds : List Char) : Nat :=
  ds.foldl (fun n c => n * 10 + (c.toNat - 48)) 0

/-- mantissa * 10 ^ exponent as a rational, written with mkRat so that
concrete values compute. -/
def tenPow (m : Int) (e : Int) : ℚ :=
  if 0 ≤ e then mkRat (m * (10 : Int) ^ e.toNat) 1
  else mkRat m ((10 : Nat) ^ (-e).toNat)

/-- takeWhile/dropWhile split on decimal digits. -/
def splitDigits (cs : List Char) : List Char × List Char :=
  (cs.takeWhile Char.isDigit, cs.dropWhile Char.isDigit)

/-- The integer part of Python json's NUMBER_RE: (?:0|[1-9]\d*).
A leading zero matches alone; otherwise a maximal digit run. -/
def scanIntPart (cs : List Char) : Option (List Char × List Char) :=
  match cs with
  | [] => none
  | d :: rest =>
    if d = '0' then some (['0'], rest)
    else if d.isDigit then some (splitDigits cs) else none

/-- The optional fraction part (\.\d+)? — consumed only when a dot is
followed by at least one digit, exactly like the regex. -/
def scanFracPart (cs : List Char) : List Char × List Char :=
  match cs with
  | '.' :: r =>
    let fd := r.takeWhile Char.isDigit
    if fd.isEmpty then ([], cs) else (fd, r.dropWhile Char.isDigit)
  | _ => ([], cs)

/-- Digits (with optional sign) after the e/E of an exponent. -/
def scanExpDigits (cs : List Char) : Option (Bool × List Char × List Char) :=
  match cs with
  | '+' :: r =>
    let ed := r.takeWhile Char.isDigit
    if ed.isEmpty then none else some (false, ed, r.dropWhile Char.isDigit)
  | '-' :: r =>
    let ed := r.takeWhile Char.isDigit
    if ed.isEmpty then none else some (true, ed, r.dropWhile Char.isDigit)
  | _ =>
    let ed := cs.takeWhile Char.isDigit
    if ed.isEmpty then none else some (false, ed, cs.dropWhile Char.isDigit)

/-- The optional exponent part ([eE][-+]?\d+)? — consumed only when the
whole alternative matches, exactly like the regex. -/
def scanExpPart (cs : List Char) : Bool × List Char × List Char :=
  match cs with
  | e :: r =>
    if e = 'e' ∨ e = 'E' then
      match scanExpDigits r with
      | some (sgn, ds, rest) => (sgn, ds, rest)
      | none => (false, [], cs)
    else (false, [], cs)
  | [] => (false, [], cs)

/-- A JSON number at the head of the input, per Python json's NUMBER_RE
maximal-munch match; returns none when the regex does not match at all
(e.g. a bare minus sign). -/
def parseNumber (cs : List Char) : Option (Json × List Char) :=
  let p := match cs with
    | '-' :: r => (true, r)
    | _ => (false, cs)
  match scanIntPart p.2 with
  | none => none
  | some (intD, cs2) =>
    let fp := scanFracPart cs2
    let ep := scanExpPart fp.2
    let mant : Int := (if p.1 then -1 else 1) * (digitsToNat (intD ++ fp.1) : Int)
    let ex : Int := (if ep.1 then -(digitsToNat ep.2.1 : Int) else (digitsToNat ep.2.1 : Int))
      - (fp.1.length : Int)
    some (Json.num (tenPow mant ex), ep.2.2)

/-- The member loop of a JSON object (after '{' and leading whitespace,
at a position where a quoted key is required).  pv parses one value. -/
def objLoop (pv : List Char → Option (Json × List Char)) :
    Nat → List Char → List (String × Json) → Option (Json × List Char)
  | 0, _, _ => none
  | f + 1, cs, acc =>
    match cs with
    | '"' :: rest =>
      match parseStringBody rest [] with
      | none => none
      | some (k, r1) =>
        match r1.dropWhile jsonWs with
        | ':' :: r2 =>
          match pv (r2.dropWhile jsonWs) with
          | none => none
          | some (v, r3) =>
            match r3.dropWhile jsonWs with
            | ',' :: r4 => objLoop pv f (r4.dropWhile jsonWs) (acc ++ [(k, v)])
            | '}' :: r4 => some (Json.obj (acc ++ [(k, v)]), r4)
            | _ => none
        | _ => none
    | _ => none

/-- The element loop of a JSON array (after '[' and leading whitespace,
at a position where a value is required). -/
def arrLoop (pv : List Char → Option (Json × List Char)) :
    Nat → List Char → List Json → Option (Json × List Char)
  | 0, _, _ => none
  | f + 1, cs, acc =>
    match pv cs with
    | none => none
    | some (v, r1) =>
      match r1.dropWhile jsonWs with
      | ',' :: r2 => arrLoop pv f (r2.dropWhile jsonWs) (acc ++ [v])
      | ']' :: r2 => some (Json.arr (acc ++ [v]), r2)
      | _ => none

/-- One JSON value at the head of the input (no leading whitespace
skipping — callers skip), per Python json's scan_once. -/
def parseValue : Nat → List Char → Option (Json × List Char)
  | 0, _ => none
  | f + 1, cs =>
    match cs with
    | [] => none
    | c :: rest =>
      if c = '{' then
        let cs1 := rest.dropWhile jsonWs
        match cs1 with
        | '}' :: r => some (Json.obj [], r)
        | _ => objLoop (parseValue f) f cs1 []
      else if c = '[' then
        let cs1 := rest.dropWhile jsonWs
        match cs1 with
        | ']' :: r => some (Json.arr [], r)
        | _ => arrLoop (parseValue f) f cs1 []
      else if c = '"' then
        match parseStringBody rest [] with
        | some (s, r) => some (Json.str s, r)
        | none => none
      else if c = 't' then
        if ("rue".data).isPrefixOf rest then some (Json.bool true, rest.drop 3) else none
      else if c = 'f' then
        if ("alse".data).isPrefixOf rest then some (Json.bool false, rest.drop 4) else none
      else if c = 'n' then
        if ("ull".data).isPrefixOf rest then some (Json.null, rest.drop 3) else none
      else if c = '-' || c.isDigit then parseNumber cs
      else none

/-- Python json.loads on a character list: skip leading whitespace, parse
one value, require only whitespace to remain ("Extra data" otherwise). -/
def json_loadsL (cs : List Char) : Option Json :=
  match parseValue (cs.length + 1) (cs.dropWhile jsonWs) with
  | some (v, rest) => if rest.all jsonWs then some v else none
  | none => none

/-- Python json.loads on a string: some value on success, none on
json.JSONDecodeError. -/
def json_loads (s : String) : Option Json := json_loadsL s.data

/-- The capture of the lazy group (\{.*?\})\s*``` once the opening brace
has been consumed: scan for the first right brace that is followed by
optional whitespace and a closing triple backtick; the regex engine's
lazy quantifier ends the group at exactly that brace. -/
def captureFrom : List Char → Option (List Char)
  | [] => none
  | c :: rest =>
    if c = '}' then
      if ("```".data).isPrefixOf (rest.dropWhile reWs) then some [c]
      else (captureFrom rest).map (fun r => c :: r)
    else (captureFrom rest).map (fun r => c :: r)

/-- One anchored attempt of re.search(r'```(?:json)?\s*(\{.*?\})\s*```',
response, re.DOTALL) at the head of the input, returning group(1).
When the text after the opening fence starts with "json", the greedy
optional tag consumes it; the untagged alternative would then require a
brace where the letter j stands and can never match, so trying the tagged
alternative alone is faithful. -/
def tryFenceAt (cs : List Char) : Option (List Char) :=
  if ("```".data).isPrefixOf cs then
    let rest := cs.drop 3
    let afterTag := if ("json".data).isPrefixOf rest then rest.drop 4 else rest
    match afterTag.dropWhile reWs with
    | '{' :: body => (captureFrom body).map (fun cap => '{' :: cap)
    | _ => none
  else none

/-- re.search tries match start positions left to right: the whole-match
semantics of the fenced-block pattern. -/
def fenceSearch : List Char → Option (List Char)
  | [] => none
  | c :: rest =>
    match tryFenceAt (c :: rest) with
    | some cap => some cap
    | none => fenceSearch rest

/-- The prefix of the input up to and including its last right brace,
or none when no right brace occurs. -/
def takeToLastClose : List Char → Option (List Char)
  | [] => none
  | c :: rest =>
    match takeToLastClose rest with
    | some body => some (c :: body)
    | none => if c = '}' then some [c] else none

/-- group(0) of re.search(r'\{.*\}', response, re.DOTALL): from the first
left brace that has a right brace after it, greedily through the last
right brace of the input. -/
def braceSpan : List Char → Option (List Char)
  | [] => none
  | c :: rest =>
    if c = '{' then
      match takeToLastClose rest with
      | some body => some (c :: body)
      | none => braceSpan rest
    else braceSpan rest

/-- The exceptions parse_json_response can raise: a json.JSONDecodeError
from loading a regex capture (whose doc is that capture), or the final
JSONDecodeError("No valid JSON found in response", response, 0) whose doc
retains the whole response. -/
inductive ParseErr where
  | decodeFail (doc : String)
  | noJson (doc : String)

/-- parse_json_response from src/core/content_generator.py:
1. try json.loads on the whole response (its failure is swallowed);
2. else search for a fenced block and json.loads its brace capture
   (a failure here escapes);
3. else search for a first-brace-to-last-brace span and json.loads it
   (a failure here escapes);
4. else raise retaining the whole response. -/
def parse_json_response (response : String) : Except ParseErr Json :=
  match json_loadsL response.data with
  | some v => .ok v
  | none =>
    match fenceSearch response.data with
    | some cap =>
      match json_loadsL cap with
      | some v => .ok v
      | none => .error (ParseErr.decodeFail (String.mk cap))
    | none =>
      match braceSpan response.data with
      | some sp =>
        match json_loadsL sp with
        | some v => .ok v
        | none => .error (ParseErr.decodeFail (String.mk sp))
      | none => .error (ParseErr.noJson response)

/-- The check `isinstance(q['options'], list) and len(q['options']) == 4`
(with `'options' in q` folded in as the lookup succeeding). -/
def optionsFieldOk (o : Option Json) : Bool :=
  match o with
  | some (Json.arr opts) => decide (opts.length = 4)
  | _ => false

/-- The type-specific validation of one question: `q['type'] ==
'multiple_choice'` demands the options check, `elif q['type'] not in
['fill_blank', 'true_false']` rejects; a non-string type compares
unequal to every one of the three names and is rejected. -/
def typeFieldOk (qm : List (String × Json)) (o : Option Json) : Bool :=
  match o with
  | some (Json.str t) =>
    if t = "multiple_choice" then optionsFieldOk (lookupKey qm "options")
    else decide (t = "fill_blank" ∨ t = "true_false")
  | _ => false

/-- One question object check inside validate_article_response:
a dict with keys type, question, correct_answer; a multiple_choice
question further needs options as a list of exactly 4 entries; any type
other than the three known ones is invalid. -/
def validQuestion (q : Json) : Bool :=
  match q with
  | Json.obj qm =>
    if keyMem qm "type" && keyMem qm "question" && keyMem qm "correct_answer" then
      typeFieldOk qm (lookupKey qm "type")
    else false
  | _ => false

/-- The check `isinstance(data['article'], str) and len(...) >= 50`. -/
def articleFieldOk (o : Option Json) : Bool :=
  match o with
  | some (Json.str a) => decide (50 ≤ a.length)
  | _ => false

/-- The check `isinstance(questions, list) and len(questions) == 5`
together with the per-question loop. -/
def questionsFieldOk (o : Option Json) : Bool :=
  match o with
  | some (Json.arr qs) => decide (qs.length = 5) && qs.all validQuestion
  | _ => false

/-- validate_article_response from src/core/content_generator.py. -/
def validate_article_response (data : Json) : Bool :=
  match data with
  | Json.obj m =>
    if keyMem m "article" && keyMem m "questions" then
      articleFieldOk (lookupKey m "article") &&
      questionsFieldOk (lookupKey m "questions")
    else false
  | _ => false

/-- The score check of validate_evaluation_response.  Python's
isinstance(x, (int, float)) is also true for booleans because bool is a
subclass of int, with True counting as 1 and False as 0 in the
comparisons. -/
def scoreAsNum (j : Json) : Option ℚ :=
  match j with
  | Json.num q => some q
  | Json.bool b => some (if b then 1 else 0)
  | _ => none

/-- The check `isinstance(data['score'], (int, float)) and not (score <
0) and not (score > 100)`. -/
def scoreFieldOk (o : Option Json) : Bool :=
  match o with
  | some s =>
    match scoreAsNum s with
    | some q => decide (0 ≤ q) && decide (q ≤ 100)
    | none => false
  | none => false

/-- The check `isinstance(data['item_analysis'], list)`. -/
def itemAnalysisFieldOk (o : Option Json) : Bool :=
  match o with
  | some (Json.arr _) => true
  | _ => false

/-- validate_evaluation_response from src/core/evaluator.py. -/
def validate_evaluation_response (data : Json) : Bool :=
  match data with
  | Json.obj m =>
    if keyMem m "score" && keyMem m "item_analysis" &&
       keyMem m "overall_feedback" && keyMem m "suggestions" then
      scoreFieldOk (lookupKey m "score") &&
      itemAnalysisFieldOk (lookupKey m "item_analysis")
    else false
  | _ => false

/-- One attempt of the retry loop: the backend call (any raised backend
error modelled as Except.error), then parse_json_response (whose raise is
caught by the loop's except clause), then the validator (whose false
outcome retries).  none means the attempt failed and the loop continues. -/
def attemptResult (validate : Json → Bool) (resp : Except Unit String) : Option Json :=
  match resp with
  | .error _ => none
  | .ok text =>
    match parse_json_response text with
    | .error _ => none
    | .ok data => if validate data then some data else none

/-- The for-attempt-in-range(max_retries) loop shared by
generate_article_and_questions and evaluate_answers: the client is
invoked once per iteration (responses is indexed by the attempt number);
the first validated attempt returns, otherwise None after the budget. -/
def retryLoop (validate : Json → Bool) (responses : Nat → Except Unit String) :
    Nat → Nat → Option Json
  | _, 0 => none
  | attempt, fuel + 1 =>
    match attemptResult validate (responses attempt) with
    | some d => some d
    | none => retryLoop validate responses (attempt + 1) fuel

/-- The number of client.generate invocations the loop performs. -/
def retryCalls (validate : Json → Bool) (responses : Nat → Except Unit String) :
    Nat → Nat → Nat
  | _, 0 => 0
  | attempt, fuel + 1 =>
    match attemptResult validate (responses attempt) with
    | some _ => 1
    | none => 1 + retryCalls validate responses (attempt + 1) fuel

/-- generate_article_and_questions from src/core/content_generator.py,
with the backend abstracted as the per-attempt response source (the
prompts are built once before the loop and do not affect control flow). -/
def generate_article_and_questions (client : Nat → Except Unit String)
    (max_retries : Nat := 3) : Option Json :=
  retryLoop validate_article_response client 0 max_retries

/-- Backend invocations made by generate_article_and_questions. -/
def generate_article_calls (client : Nat → Except Unit String)
    (max_retries : Nat := 3) : Nat :=
  retryCalls validate_article_response client 0 max_retries

/-- evaluate_answers from src/core/evaluator.py: the same loop with the
evaluation validator. -/
def evaluate_answers (client : Nat → Except Unit String)
    (max_retries : Nat := 3) : Option Json :=
  retryLoop validate_evaluation_response client 0 max_retries

/-- Backend invocations made by evaluate_answers. -/
def evaluate_answers_calls (client : Nat → Except Unit String)
    (max_retries : Nat := 3) : Nat :=
  retryCalls validate_evaluation_response client 0 max_retries

/-- Python str.lower, idealised to per-character ASCII lowering. -/
def strLower (s : String) : String := String.mk (s.data.map Char.toLower)

/-- Python str.strip: remove leading and trailing whitespace. -/
def strTrim (s : String) : String :=
  String.mk (((s.data.dropWhile Char.isWhitespace).reverse.dropWhile
    Char.isWhitespace).reverse)

/-- The dedup core of deduplicate_words from src/core/word_bank.py:
walk the list keeping a set of lowercased words already seen, appending a
word (in its original casing) only when its lowercase form is new. -/
def dedupGo : List String → List String → List String
  | [], _ => []
  | w :: rest, seen =>
    if seen.contains (strLower w) then dedupGo rest seen
    else w :: dedupGo rest (strLower w :: seen)

/-- deduplicate_words: the deduplicated list that gets saved back, and
the returned removed-count original_count - len(unique_words).  Loading
and saving the word file are persistence-backend I/O outside the core. -/
def deduplicate_words (words : List String) : List String × Nat :=
  let u := dedupGo words []
  (u, words.length - u.length)

/-- The appending loop of add_words from src/core/word_bank.py: each new
word is stripped; it is appended (and counted) only when nonempty and its
lowercase form is not in the seen set, which starts as the lowercases of
the existing words and grows with each appended word. -/
def addWordsGo : List String → List String → List String → Nat → List String × Nat
  | [], acc, _, cnt => (acc, cnt)
  | w :: rest, acc, seen, cnt =>
    let w2 := strTrim w
    if w2 ≠ "" ∧ ¬ seen.contains (strLower w2) then
      addWordsGo rest (acc ++ [w2]) (strLower w2 :: seen) (cnt + 1)
    else addWordsGo rest acc seen cnt

/-- add_words: the saved word list and the returned added-count. -/
def add_words (existing new_words : List String) : List String × Nat :=
  addWordsGo new_words existing (existing.map strLower) 0

/-- A question as accessed by get_evaluation_prompt (the fields the
f-string reads from the question dict). -/
structure EvalQ where
  qtype : String
  question : String
  correct_answer : String

/-- The per-pair f-string block of get_evaluation_prompt, for 1-based
index i. -/
def formatBlock (i : Nat) (q : EvalQ) (ans : String) : String :=
  "Question " ++ toString i ++ " (" ++ q.qtype ++ "):\nQ: " ++ q.question ++
  "\nCorrect Answer: " ++ q.correct_answer ++ "\nStudent Answer: " ++ ans ++ "\n"

/-- enumerate(zip(questions, user_answers), i) mapped through the
f-string block: pairs positionally until the shorter list is exhausted,
numbering from i. -/
def qaPairsFrom (i : Nat) : List EvalQ → List String → List String
  | q :: qs, a :: as => formatBlock i q a :: qaPairsFrom (i + 1) qs as
  | _, _ => []

/-- qa_pairs of get_evaluation_prompt: enumerate(zip(questions,
user_answers), 1) — positional pairing, truncating to the shorter list. -/
def qaPairs (questions : List EvalQ) (answers : List String) : List String :=
  qaPairsFrom 1 questions answers

/-- The system prompt of get_evaluation_prompt. -/
def evalSystemPrompt : String :=
  "You are a patient English teacher responsible for evaluating student performance and providing constructive feedback. You must return valid JSON format only."

/-- The user-prompt text before the joined qa blocks. -/
def evalPromptHeader : String :=
  "Please evaluate the following answers:\n\n"

/-- The user-prompt text after the joined qa blocks: the requirements and
the JSON shape example. -/
def evalPromptFooter : String :=
  "\n\nRequirements:\n1. Give a total score (out of 100)\n2. Analyze each question (correct/incorrect)\n3. Explain why answers are wrong\n4. Provide learning suggestions\n\nReturn in JSON format:\n\x7b\n  \"score\": 80,\n  \"item_analysis\": [\n    \x7b\n      \"question_num\": 1,\n      \"correct\": true,\n      \"feedback\": \"explanation\"\n    \x7d\n  ],\n  \"overall_feedback\": \"overall evaluation\",\n  \"suggestions\": \"learning suggestions\"\n\x7d\n\nIMPORTANT: Return ONLY valid JSON, no other text."

/-- get_evaluation_prompt from src/prompts/evaluation.py. -/
def get_evaluation_prompt (questions : List EvalQ) (answers : List String) :
    String × String :=
  (evalSystemPrompt,
   evalPromptHeader ++ String.intercalate "\n" (qaPairs questions answers) ++
   evalPromptFooter)

/-- The user profile loaded by load_user_info, as used by
generate_content. -/
structure UserInfo where
  age : Nat
  lexile_level : Nat

/-- The outcome generate_content surfaces to the UI: either one of the
status messages of its early returns and failure path, or the generated
content. -/
inductive GenOutcome where
  | failure (msg : String)
  | success (data : Json)

/-- generate_content from src/app.py, with its collaborators made
explicit: the loaded profile, the loaded word bank, the api key lookup
result and the backend.  The second component counts backend
invocations.  Guards run in source order; the pipeline runs only after
all of them pass, with the default budget of 3 attempts. -/
def generate_content (username provider model : String) (info : Option UserInfo)
    (words : List String) (apiKey : Option String)
    (client : Nat → Except Unit String) : GenOutcome × Nat :=
  if username = "" then (.failure "Please select a user first", 0)
  else if provider = "" ∨ model = "" then
    (.failure "Please select AI provider and model", 0)
  else
    match info with
    | none => (.failure "Please save user profile first", 0)
    | some _ =>
      if words.length < 5 then
        (.failure "Please add at least 5 words to the word bank", 0)
      else
        match apiKey with
        | none => (.failure "API key not found", 0)
        | some _ =>
          match generate_article_and_questions client 3 with
          | none => (.failure "Failed to generate content",
                     generate_article_calls client 3)
          | some r => (.success r, generate_article_calls client 3)

/-! Spec-side definitions: these follow the wording of the specification
and of the claims, to be compared with the code-side definitions above. -/

/-- Spec wording: keep each word whose lowercase form has not occurred
earlier in the list (first occurrence kept, original casing preserved). -/
def firstOccurrences : List String → List String
  | [] => []
  | w :: rest => w :: firstOccurrences (rest.filter (fun x => strLower x ≠ strLower w))
termination_by l => l.length
decreasing_by
  simp only [List.length_cons]
  exact Nat.lt_succ_of_le (List.length_filter_le _ _)

/-- Spec wording: the number of entries whose lowercase form already
occurred earlier in the list (the later case-insensitive duplicates). -/
def laterDupCount : List String → List String → Nat
  | [], _ => 0
  | w :: rest, seen =>
    if seen.contains (strLower w) then 1 + laterDupCount rest seen
    else laterDupCount rest (strLower w :: seen)

/-- Spec wording for add_words: the stripped non-empty new words whose
lowercase form occurs neither among the given lowercases nor among
earlier appended entries, first occurrence kept, input order preserved. -/
def specAppended : List String → List String → List String
  | _, [] => []
  | seen, w :: rest =>
    let w2 := strTrim w
    if w2 ≠ "" ∧ strLower w2 ∉ seen then w2 :: specAppended (strLower w2 :: seen) rest
    else specAppended seen rest

/-- Claim C4's wording for one question object. -/
def SpecQuestionOk (q : Json) : Prop :=
  ∃ qm, q = Json.obj qm ∧
    keyMem qm "question" = true ∧ keyMem qm "correct_answer" = true ∧
    ∃ t, lookupKey qm "type" = some (Json.str t) ∧
      (t = "multiple_choice" ∨ t = "fill_blank" ∨ t = "true_false") ∧
      (t = "multiple_choice" →
        ∃ opts, lookupKey qm "options" = some (Json.arr opts) ∧ opts.length = 4)

/-- Claim C4's wording for the article payload: an object with a string
article of length at least 50 and a questions sequence of exactly 5
objects of the question shape. -/
def SpecArticleOk (v : Json) : Prop :=
  ∃ m, v = Json.obj m ∧
    (∃ a, lookupKey m "article" = some (Json.str a) ∧ 50 ≤ a.length) ∧
    (∃ qs, lookupKey m "questions" = some (Json.arr qs) ∧ qs.length = 5 ∧
      ∀ q ∈ qs, SpecQuestionOk q)

/-- Claim C7's wording: score is a numeric field within 0..100,
item_analysis is a sequence, overall_feedback and suggestions are
present with any shape. -/
def SpecEvalOkNumeric (v : Json) : Prop :=
  ∃ m, v = Json.obj m ∧
    keyMem m "overall_feedback" = true ∧ keyMem m "suggestions" = true ∧
    (∃ q : ℚ, lookupKey m "score" = some (Json.num q) ∧ 0 ≤ q ∧ q ≤ 100) ∧
    (∃ l, lookupKey m "item_analysis" = some (Json.arr l))

/-- Claim C7 amended: the score check as the code performs it — numeric
or boolean (bool being an int subclass in Python, True counting as 1). -/
def SpecEvalOk (v : Json) : Prop :=
  ∃ m, v = Json.obj m ∧
    keyMem m "overall_feedback" = true ∧ keyMem m "suggestions" = true ∧
    (∃ s q, lookupKey m "score" = some s ∧ scoreAsNum s = some q ∧ 0 ≤ q ∧ q ≤ 100) ∧
    (∃ l, lookupKey m "item_analysis" = some (Json.arr l))

/-- Claim C2's fence wrapping of a payload. -/
def wrap_in_fence (X : String) : String := "```json\n" ++ X ++ "\n```"

/-- A character that is none of the structural characters of the three
extraction strategies: braces, brackets, double quote and backtick. -/
def structuralFree (c : Char) : Bool :=
  !(c = '{') && !(c = '}') && !(c = '[') && !(c = ']') && !(c = '"') && !(c = btick)

/-- No right brace other than the final character is followed by
whitespace only: the lazy fence capture then ends exactly at the final
brace. -/
def noPrematureClose (cs : List Char) : Bool :=
  (List.range cs.length).all (fun p =>
    decide (p + 1 = cs.length) || !(decide (cs.get? p = some '}')) ||
    !((cs.drop (p + 1)).all reWs))

/-- The evaluation payload with a boolean score that Python's validator
accepts (isinstance(True, int) holds). -/
def boolScoreEval : Json :=
  Json.obj [("score", Json.bool true), ("item_analysis", Json.arr []),
            ("overall_feedback", Json.null), ("suggestions", Json.null)]

/-! Theorems. -/

theorem retryCalls_le (v : Json → Bool) (c : Nat → Except Unit String) :
    ∀ (fuel attempt : Nat), retryCalls v c attempt fuel ≤ fuel := by
  intro fuel
  induction fuel with
  | zero => intro attempt; simp [retryCalls]
  | succ f ih =>
    intro attempt
    simp only [retryCalls]
    split
    · omega
    · have := ih (attempt + 1); omega

theorem retryLoop_none (v : Json → Bool) (c : Nat → Except Unit String) :
    ∀ (fuel attempt : Nat),
      (∀ i, attempt ≤ i → i < attempt + fuel → attemptResult v (c i) = none) →
      retryLoop v c attempt fuel = none := by
  intro fuel
  induction fuel with
  | zero => intro attempt _; rfl
  | succ f ih =>
    intro attempt h
    have h0 : attemptResult v (c attempt) = none := h attempt (Nat.le_refl _) (by omega)
    simp only [retryLoop, h0]
    exact ih (attempt + 1) (fun i h1 h2 => h i (by omega) (by omega))

/-- C1: each of generate_article_and_questions and evaluate_answers
invokes the backend at most max_retries times; and when every attempt
within the budget fails (backend error, parse failure or validation
failure), the pipeline returns an absent result (none) — no exception
from the retryable path escapes, absence being the only failure signal. -/
theorem pipeline_retry_bound :
    ∀ (client : Nat → Except Unit String) (max_retries : Nat),
      generate_article_calls client max_retries ≤ max_retries ∧
      evaluate_answers_calls client max_retries ≤ max_retries ∧
      ((∀ i, i < max_retries →
          attemptResult validate_article_response (client i) = none) →
        generate_article_and_questions client max_retries = none) ∧
      ((∀ i, i < max_retries →
          attemptResult validate_evaluation_response (client i) = none) →
        evaluate_answers client max_retries = none) := by
  intro client max_retries
  refine ⟨retryCalls_le _ _ _ _, retryCalls_le _ _ _ _, fun h => ?_, fun h => ?_⟩
  · exact retryLoop_none _ _ _ 0 (fun i _ h2 => h i (by omega))
  · exact retryLoop_none _ _ _ 0 (fun i _ h2 => h i (by omega))

theorem pipeline_retry_bound_witness :
    generate_article_calls (fun _ => Except.error ()) 3 ≤ 3 ∧
    generate_article_and_questions (fun _ => Except.error ()) 3 = none := by
  refine ⟨(pipeline_retry_bound (fun _ => Except.error ()) 3).1,
          (pipeline_retry_bound (fun _ => Except.error ()) 3).2.2.1 ?_⟩
  intro i _
  rfl

/-- C5: with a selected user, provider, model and a saved profile, a
word bank of fewer than 5 words makes generate_content return its
distinct insufficiency message at once, with zero backend invocations —
no retry budget is consumed and the pipeline is never entered. -/
theorem word_bank_short_circuit :
    ∀ (username provider model : String) (info : UserInfo) (words : List String)
      (apiKey : Option String) (client : Nat → Except Unit String),
      username ≠ "" → provider ≠ "" → model ≠ "" → words.length < 5 →
      generate_content username provider model (some info) words apiKey client =
        (GenOutcome.failure "Please add at least 5 words to the word bank", 0) := by
  intro username provider model info words apiKey client hu hp hm hw
  simp [generate_content, hu, hp, hm, hw]

theorem word_bank_short_circuit_witness :
    generate_content "alice" "openai" "gpt-4o" (some ⟨10, 500⟩) ["apple", "pear"]
        (some "key") (fun _ => Except.error ()) =
      (GenOutcome.failure "Please add at least 5 words to the word bank", 0) :=
  word_bank_short_circuit "alice" "openai" "gpt-4o" ⟨10, 500⟩ ["apple", "pear"]
    (some "key") (fun _ => Except.error ())
    (by decide) (by decide) (by decide) (by decide)

theorem dedupGo_sublist : ∀ (ws seen : List String), List.Sublist (dedupGo ws seen) ws := by
  intro ws
  induction ws with
  | nil => intro seen; exact List.Sublist.refl _
  | cons w rest ih =>
    intro seen
    simp only [dedupGo]
    split
    · exact List.Sublist.cons w (ih seen)
    · exact List.Sublist.cons₂ w (ih (strLower w :: seen))

theorem dedupGo_eq_firstOcc : ∀ (ws seen : List String),
    dedupGo ws seen =
      firstOccurrences (ws.filter (fun w => !(seen.contains (strLower w)))) := by
  intro ws
  induction ws with
  | nil => intro seen; simp [dedupGo, firstOccurrences]
  | cons w rest ih =>
    intro seen
    cases h : seen.contains (strLower w) with
    | true =>
      rw [dedupGo, if_pos h, List.filter_cons, h]
      simp only [Bool.not_true, Bool.false_eq_true, if_false]
      exact ih seen
    | false =>
      rw [dedupGo, if_neg (by rw [h]; exact Bool.false_ne_true), List.filter_cons, h]
      simp only [Bool.not_false, if_true]
      rw [firstOccurrences, ih (strLower w :: seen)]
      congr 1
      rw [List.filter_filter]
      congr 1
      apply List.filter_congr
      intro x _
      by_cases he : strLower x = strLower w <;> simp [List.contains_cons, he]

theorem dedupGo_length_add : ∀ (ws seen : List String),
    ws.length = (dedupGo ws seen).length + laterDupCount ws seen := by
  intro ws
  induction ws with
  | nil => intro seen; rfl
  | cons w rest ih =>
    intro seen
    by_cases h : seen.contains (strLower w)
    · rw [dedupGo, if_pos h, laterDupCount, if_pos h]
      have := ih seen
      simp only [List.length_cons]
      omega
    · rw [dedupGo, if_neg h, laterDupCount, if_neg h]
      have := ih (strLower w :: seen)
      simp only [List.length_cons]
      omega

/-- C6: deduplication is case-insensitive and order-preserving — the
saved list keeps the first occurrence of each word under lowercase
comparison with its original casing (it equals the spec's
first-occurrence filter and is a sublist of the input), the reported
count is the number of later case-insensitive duplicates, and on
["Cat", "cat", "dog"] the result is (["Cat", "dog"], 1). -/
theorem deduplicate_words_spec :
    ∀ ws : List String,
      (deduplicate_words ws).1 = firstOccurrences ws ∧
      List.Sublist (deduplicate_words ws).1 ws ∧
      (deduplicate_words ws).2 = laterDupCount ws [] ∧
      deduplicate_words ["Cat", "cat", "dog"] = (["Cat", "dog"], 1) := by
  intro ws
  refine ⟨?_, dedupGo_sublist ws [], ?_, by rfl⟩
  · show dedupGo ws [] = _
    rw [dedupGo_eq_firstOcc]
    congr 1
    simp
  · show ws.length - (dedupGo ws []).length = _
    have := dedupGo_length_add ws []
    omega

theorem addWordsGo_eq : ∀ (nw acc seen : List String) (cnt : Nat),
    addWordsGo nw acc seen cnt =
      (acc ++ specAppended seen nw, cnt + (specAppended seen nw).length) := by
  intro nw
  induction nw with
  | nil => intro acc seen cnt; simp [addWordsGo, specAppended]
  | cons w rest ih =>
    intro acc seen cnt
    by_cases h : strTrim w ≠ "" ∧ strLower (strTrim w) ∉ seen
    · have hc : strTrim w ≠ "" ∧ ¬ seen.contains (strLower (strTrim w)) := by
        refine ⟨h.1, fun hx => h.2 ?_⟩
        simpa using hx
      simp only [addWordsGo, specAppended, if_pos h, if_pos hc, ih,
        List.append_assoc, List.singleton_append, List.length_cons]
      rw [Prod.mk.injEq]
      exact ⟨rfl, by omega⟩
    · have hc : ¬ (strTrim w ≠ "" ∧ ¬ seen.contains (strLower (strTrim w))) := by
        intro hx
        exact h ⟨hx.1, fun hm => hx.2 (by simpa using hm)⟩
      simp only [addWordsGo, specAppended, if_neg h, if_neg hc, ih]

theorem specAppended_fresh : ∀ (nw seen : List String),
    (∀ a ∈ specAppended seen nw, strLower a ∉ seen) ∧
    (specAppended seen nw).Pairwise (fun a b => strLower a ≠ strLower b) := by
  intro nw
  induction nw with
  | nil => intro seen; simp [specAppended]
  | cons w rest ih =>
    intro seen
    by_cases h : strTrim w ≠ "" ∧ strLower (strTrim w) ∉ seen
    · simp only [specAppended, if_pos h]
      constructor
      · intro a ha
        rcases List.mem_cons.mp ha with rfl | ha2
        · exact h.2
        · intro hmem
          exact (ih (strLower (strTrim w) :: seen)).1 a ha2 (List.mem_cons_of_mem _ hmem)
      · refine List.Pairwise.cons ?_ (ih (strLower (strTrim w) :: seen)).2
        intro b hb heq
        exact (ih (strLower (strTrim w) :: seen)).1 b hb (heq ▸ List.mem_cons_self _ _)
    · simp only [specAppended, if_neg h]
      exact ih seen

/-- C10: add_words keeps the existing words as a prefix and appends
exactly the spec's selection of new words — stripped, nonempty, first
occurrence per lowercase form, skipping lowercases already in the bank —
returns the number appended, and never introduces a case-insensitive
duplicate that was not already present. -/
theorem add_words_spec :
    ∀ (existing new_words : List String),
      (add_words existing new_words).1 =
        existing ++ specAppended (existing.map strLower) new_words ∧
      (add_words existing new_words).2 =
        (specAppended (existing.map strLower) new_words).length ∧
      (∀ a ∈ specAppended (existing.map strLower) new_words,
        strLower a ∉ existing.map strLower) ∧
      (specAppended (existing.map strLower) new_words).Pairwise
        (fun a b => strLower a ≠ strLower b) := by
  intro existing new_words
  have h := addWordsGo_eq new_words existing (existing.map strLower) 0
  refine ⟨?_, ?_, (specAppended_fresh new_words _).1, (specAppended_fresh new_words _).2⟩
  · show (addWordsGo new_words existing (existing.map strLower) 0).1 = _
    rw [h]
  · show (addWordsGo new_words existing (existing.map strLower) 0).2 = _
    rw [h]
    omega

theorem qaPairsFrom_length : ∀ (qs : List EvalQ) (answers : List String) (i : Nat),
    (qaPairsFrom i qs answers).length = min qs.length answers.length := by
  intro qs
  induction qs with
  | nil => intro answers i; cases answers <;> simp [qaPairsFrom]
  | cons q rest ih =>
    intro answers i
    cases answers with
    | nil => simp [qaPairsFrom]
    | cons a as =>
      simp only [qaPairsFrom, List.length_cons, ih]
      omega

theorem qaPairsFrom_get : ∀ (qs : List EvalQ) (answers : List String) (i k : Nat)
    (q : EvalQ) (a : String),
    qs.get? k = some q → answers.get? k = some a →
    (qaPairsFrom i qs answers).get? k = some (formatBlock (i + k) q a) := by
  intro qs
  induction qs with
  | nil => intro answers i k q a hq _; simp at hq
  | cons q0 rest ih =>
    intro answers i k q a hq ha
    cases answers with
    | nil => simp at ha
    | cons a0 as =>
      cases k with
      | zero =>
        simp only [List.get?] at hq ha
        cases hq; cases ha
        simp [qaPairsFrom]
      | succ k2 =>
        simp only [List.get?] at hq ha
        have := ih as (i + 1) k2 q a hq ha
        have harith : i + 1 + k2 = i + (k2 + 1) := by omega
        simpa [qaPairsFrom, harith] using this

/-- C8: the evaluation prompt builder emits exactly one formatted block
per (question, answer) pair — min(len questions, len answers) blocks,
positionally paired and numbered from 1 — and the user prompt is the
header, the newline-joined blocks, and the requirements footer. -/
theorem get_evaluation_prompt_spec :
    ∀ (questions : List EvalQ) (answers : List String),
      (qaPairs questions answers).length = min questions.length answers.length ∧
      (∀ k q a, questions.get? k = some q → answers.get? k = some a →
        (qaPairs questions answers).get? k = some (formatBlock (k + 1) q a)) ∧
      get_evaluation_prompt questions answers =
        (evalSystemPrompt,
         evalPromptHeader ++ String.intercalate "\n" (qaPairs questions answers) ++
         evalPromptFooter) := by
  intro questions answers
  refine ⟨qaPairsFrom_length questions answers 1, ?_, rfl⟩
  intro k q a hq ha
  have := qaPairsFrom_get questions answers 1 k q a hq ha
  have harith : 1 + k = k + 1 := by omega
  rwa [harith] at this

theorem keyMem_of_lookup {m : List (String × Json)} {k : String} {v : Json}
    (h : lookupKey m k = some v) : keyMem m k = true := by
  unfold lookupKey at h
  unfold keyMem
  rcases Option.map_eq_some'.mp h with ⟨p, hp, _⟩
  have hm : p ∈ m.reverse := List.mem_of_find?_eq_some hp
  have hk := List.find?_some hp
  exact List.any_eq_true.mpr ⟨p, List.mem_reverse.mp hm, hk⟩

theorem lookup_of_keyMem {m : List (String × Json)} {k : String}
    (h : keyMem m k = true) : ∃ v, lookupKey m k = some v := by
  unfold keyMem at h
  rcases List.any_eq_true.mp h with ⟨p, hp, hk⟩
  have hsome : (m.reverse.find? (fun p => p.1 == k)).isSome := by
    rw [List.find?_isSome]
    exact ⟨p, List.mem_reverse.mpr hp, hk⟩
  rcases Option.isSome_iff_exists.mp hsome with ⟨p2, hp2⟩
  exact ⟨p2.2, by unfold lookupKey; rw [hp2]; rfl⟩

theorem optionsFieldOk_iff (o : Option Json) :
    optionsFieldOk o = true ↔ ∃ opts, o = some (Json.arr opts) ∧ opts.length = 4 := by
  cases o with
  | none => simp [optionsFieldOk]
  | some j => cases j <;> simp [optionsFieldOk]

theorem articleFieldOk_iff (o : Option Json) :
    articleFieldOk o = true ↔ ∃ a, o = some (Json.str a) ∧ 50 ≤ a.length := by
  cases o with
  | none => simp [articleFieldOk]
  | some j => cases j <;> simp [articleFieldOk]

theorem typeFieldOk_iff (qm : List (String × Json)) (o : Option Json) :
    typeFieldOk qm o = true ↔
      ∃ t, o = some (Json.str t) ∧
        (t = "multiple_choice" ∨ t = "fill_blank" ∨ t = "true_false") ∧
        (t = "multiple_choice" →
          ∃ opts, lookupKey qm "options" = some (Json.arr opts) ∧ opts.length = 4) := by
  cases o with
  | none => simp [typeFieldOk]
  | some j =>
    cases j with
    | str t =>
      by_cases hs : t = "multiple_choice"
      · simp only [typeFieldOk, if_pos hs, optionsFieldOk_iff]
        constructor
        · rintro ⟨opts, ho, hlen⟩
          exact ⟨t, rfl, Or.inl hs, fun _ => ⟨opts, ho, hlen⟩⟩
        · rintro ⟨t2, ht2, _, hopt⟩
          injection ht2 with ht3
          injection ht3 with ht4
          subst ht4
          exact hopt hs
      · simp only [typeFieldOk, if_neg hs, decide_eq_true_eq]
        constructor
        · intro hmem
          exact ⟨t, rfl, Or.inr hmem, fun hmc => absurd hmc hs⟩
        · rintro ⟨t2, ht2, hmem, _⟩
          injection ht2 with ht3
          injection ht3 with ht4
          subst ht4
          rcases hmem with hmc | hrest
          · exact absurd hmc hs
          · exact hrest
    | null => simp [typeFieldOk]
    | bool b => simp [typeFieldOk]
    | num n => simp [typeFieldOk]
    | arr l => simp [typeFieldOk]
    | obj m2 => simp [typeFieldOk]

theorem validQuestion_iff : ∀ q : Json, validQuestion q = true ↔ SpecQuestionOk q := by
  intro q
  cases q with
  | obj qm =>
    simp only [validQuestion]
    constructor
    · intro h
      split at h
      case isTrue hk =>
        simp only [Bool.and_eq_true] at hk
        rcases (typeFieldOk_iff qm (lookupKey qm "type")).mp h with ⟨t, hl, hmem, hopt⟩
        exact ⟨qm, rfl, hk.1.2, hk.2, t, hl, hmem, hopt⟩
      case isFalse => simp at h
    · rintro ⟨qm2, heq, hq, hca, t, hl, hmem, hopt⟩
      injection heq with h2
      subst h2
      have hk : keyMem qm "type" = true := keyMem_of_lookup hl
      rw [if_pos (by rw [hk, hq, hca]; rfl)]
      exact (typeFieldOk_iff qm (lookupKey qm "type")).mpr ⟨t, hl, hmem, hopt⟩
  | null => simp [validQuestion, SpecQuestionOk]
  | bool b => simp [validQuestion, SpecQuestionOk]
  | num n => simp [validQuestion, SpecQuestionOk]
  | str s => simp [validQuestion, SpecQuestionOk]
  | arr l => simp [validQuestion, SpecQuestionOk]

theorem questionsFieldOk_iff (o : Option Json) :
    questionsFieldOk o = true ↔
      ∃ qs, o = some (Json.arr qs) ∧ qs.length = 5 ∧ ∀ q ∈ qs, SpecQuestionOk q := by
  cases o with
  | none => simp [questionsFieldOk]
  | some j =>
    cases j with
    | arr qs =>
      simp only [questionsFieldOk, Bool.and_eq_true, decide_eq_true_eq,
        List.all_eq_true, Option.some.injEq, Json.arr.injEq]
      constructor
      · rintro ⟨hlen, hall⟩
        exact ⟨qs, rfl, hlen, fun q hq => (validQuestion_iff q).mp (hall q hq)⟩
      · rintro ⟨qs2, rfl, hlen, hall⟩
        exact ⟨hlen, fun q hq => (validQuestion_iff q).mpr (hall q hq)⟩
    | null => simp [questionsFieldOk]
    | bool b => simp [questionsFieldOk]
    | num n => simp [questionsFieldOk]
    | str s => simp [questionsFieldOk]
    | obj m2 => simp [questionsFieldOk]

/-- C4: the article validator accepts exactly the objects with a string
article of at least 50 characters and a questions sequence of exactly 5
question objects — each with type, question and correct_answer, a
multiple_choice question further carrying exactly 4 options, and every
type one of multiple_choice, fill_blank, true_false; in particular a
value missing article or with a questions count other than 5 is
rejected. -/
theorem validate_article_response_iff :
    ∀ v : Json, validate_article_response v = true ↔ SpecArticleOk v := by
  intro v
  cases v with
  | obj m =>
    simp only [validate_article_response]
    constructor
    · intro h
      split at h
      case isTrue hk =>
        simp only [Bool.and_eq_true] at h
        rcases (articleFieldOk_iff _).mp h.1 with ⟨a, hla, halen⟩
        rcases (questionsFieldOk_iff _).mp h.2 with ⟨qs, hlq, hqlen, hall⟩
        exact ⟨m, rfl, ⟨a, hla, halen⟩, ⟨qs, hlq, hqlen, hall⟩⟩
      case isFalse => simp at h
    · rintro ⟨m2, heq, ⟨a, hla, halen⟩, ⟨qs, hlq, hqlen, hall⟩⟩
      injection heq with h2
      subst h2
      have hka : keyMem m "article" = true := keyMem_of_lookup hla
      have hkq : keyMem m "questions" = true := keyMem_of_lookup hlq
      rw [if_pos (by rw [hka, hkq]; rfl)]
      rw [Bool.and_eq_true]
      exact ⟨(articleFieldOk_iff _).mpr ⟨a, hla, halen⟩,
             (questionsFieldOk_iff _).mpr ⟨qs, hlq, hqlen, hall⟩⟩
  | null => simp [validate_article_response, SpecArticleOk]
  | bool b => simp [validate_article_response, SpecArticleOk]
  | num n => simp [validate_article_response, SpecArticleOk]
  | str s => simp [validate_article_response, SpecArticleOk]
  | arr l => simp [validate_article_response, SpecArticleOk]

theorem get_evaluation_prompt_spec_witness :
    (qaPairs [⟨"multiple_choice", "Q1", "A"⟩, ⟨"fill_blank", "Q2", "B"⟩] ["x"]).length =
      min 2 1 ∧
    (qaPairs [⟨"multiple_choice", "Q1", "A"⟩, ⟨"fill_blank", "Q2", "B"⟩] ["x"]).get? 0 =
      some (formatBlock 1 ⟨"multiple_choice", "Q1", "A"⟩ "x") :=
  ⟨(get_evaluation_prompt_spec _ ["x"]).1,
   (get_evaluation_prompt_spec [⟨"multiple_choice", "Q1", "A"⟩, ⟨"fill_blank", "Q2", "B"⟩]
      ["x"]).2.1 0 ⟨"multiple_choice", "Q1", "A"⟩ "x" rfl rfl⟩

theorem scoreFieldOk_iff (o : Option Json) :
    scoreFieldOk o = true ↔
      ∃ s q, o = some s ∧ scoreAsNum s = some q ∧ 0 ≤ q ∧ q ≤ 100 := by
  cases o with
  | none => simp [scoreFieldOk]
  | some s =>
    cases hn : scoreAsNum s with
    | none => simp [scoreFieldOk, hn]
    | some q => simp [scoreFieldOk, hn, Bool.and_eq_true, decide_eq_true_eq, and_assoc]

theorem itemAnalysisFieldOk_iff (o : Option Json) :
    itemAnalysisFieldOk o = true ↔ ∃ l, o = some (Json.arr l) := by
  cases o with
  | none => simp [itemAnalysisFieldOk]
  | some j => cases j <;> simp [itemAnalysisFieldOk]

/-- C7 amended: the evaluation validator accepts exactly the objects
carrying overall_feedback and suggestions (any shape), an item_analysis
sequence, and a score that is numeric or boolean — Python's isinstance
check treats bool as int, True counting as 1 — within 0..100. -/
theorem validate_evaluation_response_iff :
    ∀ v : Json, validate_evaluation_response v = true ↔ SpecEvalOk v := by
  intro v
  cases v with
  | obj m =>
    simp only [validate_evaluation_response]
    constructor
    · intro h
      split at h
      case isTrue hk =>
        simp only [Bool.and_eq_true] at h hk
        rcases (scoreFieldOk_iff _).mp h.1 with ⟨s, q, hls, hnum, h0, h100⟩
        rcases (itemAnalysisFieldOk_iff _).mp h.2 with ⟨l, hll⟩
        exact ⟨m, rfl, hk.1.2, hk.2, ⟨s, q, hls, hnum, h0, h100⟩, ⟨l, hll⟩⟩
      case isFalse => simp at h
    · rintro ⟨m2, heq, hof, hsg, ⟨s, q, hls, hnum, h0, h100⟩, ⟨l, hll⟩⟩
      injection heq with h2
      subst h2
      have hks : keyMem m "score" = true := keyMem_of_lookup hls
      have hki : keyMem m "item_analysis" = true := keyMem_of_lookup hll
      rw [if_pos (by rw [hks, hki, hof, hsg]; rfl)]
      rw [Bool.and_eq_true]
      exact ⟨(scoreFieldOk_iff _).mpr ⟨s, q, hls, hnum, h0, h100⟩,
             (itemAnalysisFieldOk_iff _).mpr ⟨l, hll⟩⟩
  | null => simp [validate_evaluation_response, SpecEvalOk]
  | bool b => simp [validate_evaluation_response, SpecEvalOk]
  | num n => simp [validate_evaluation_response, SpecEvalOk]
  | str s => simp [validate_evaluation_response, SpecEvalOk]
  | arr l => simp [validate_evaluation_response, SpecEvalOk]

/-- C7 counterexample: a payload whose score is the boolean true passes
validate_evaluation_response (Python's isinstance(True, (int, float))
holds and True compares as 1), yet its score is not a numeric field —
so "valid iff score is numeric" fails. -/
theorem evaluation_score_bool_cex :
    validate_evaluation_response boolScoreEval = true ∧
    ¬ SpecEvalOkNumeric boolScoreEval := by
  constructor
  · rfl
  · rintro ⟨m, heq, _, _, ⟨q, hs, _, _⟩, _⟩
    have h2 : ([("score", Json.bool true), ("item_analysis", Json.arr []),
               ("overall_feedback", Json.null), ("suggestions", Json.null)]
               : List (String × Json)) = m := by
      injection heq
    subst h2
    have h3 : some (Json.bool true) = some (Json.num q) := by
      rw [← hs]; rfl
    simp at h3

/-- C3 amended: the extractor tries the whole-text parse, then the
fenced-block capture, then the first-brace-to-last-brace span, first
success winning — but a later strategy is attempted only when the
earlier pattern did not match at all: a matched capture that fails to
parse raises that decode error immediately (retaining the capture, not
the input), and the final ParseFailure retaining the whole input arises
only when the whole-text parse fails and neither pattern matches. -/
theorem parse_json_response_spec :
    ∀ r : String,
      (∀ v, json_loadsL r.data = some v → parse_json_response r = Except.ok v) ∧
      (json_loadsL r.data = none → ∀ cap v, fenceSearch r.data = some cap →
        json_loadsL cap = some v → parse_json_response r = Except.ok v) ∧
      (json_loadsL r.data = none → ∀ cap, fenceSearch r.data = some cap →
        json_loadsL cap = none →
        parse_json_response r = Except.error (ParseErr.decodeFail (String.mk cap))) ∧
      (json_loadsL r.data = none → fenceSearch r.data = none →
        ∀ sp v, braceSpan r.data = some sp → json_loadsL sp = some v →
        parse_json_response r = Except.ok v) ∧
      (json_loadsL r.data = none → fenceSearch r.data = none →
        ∀ sp, braceSpan r.data = some sp → json_loadsL sp = none →
        parse_json_response r = Except.error (ParseErr.decodeFail (String.mk sp))) ∧
      (json_loadsL r.data = none → fenceSearch r.data = none →
        braceSpan r.data = none →
        parse_json_response r = Except.error (ParseErr.noJson r)) := by
  intro r
  refine ⟨?_, ?_, ?_, ?_, ?_, ?_⟩
  · intro v h; simp [parse_json_response, h]
  · intro h1 cap v h2 h3; simp [parse_json_response, h1, h2, h3]
  · intro h1 cap h2 h3; simp [parse_json_response, h1, h2, h3]
  · intro h1 h2 sp v h3 h4; simp [parse_json_response, h1, h2, h3, h4]
  · intro h1 h2 sp h3 h4; simp [parse_json_response, h1, h2, h3, h4]
  · intro h1 h2 h3; simp [parse_json_response, h1, h2, h3]

theorem parse_json_response_spec_witness :
    parse_json_response "no braces at all" =
      Except.error (ParseErr.noJson "no braces at all") :=
  (parse_json_response_spec "no braces at all").2.2.2.2.2 rfl rfl rfl

/-- C3 counterexample: on this input strategy 1 fails, the fence pattern
matches with a capture that is not valid JSON, and the third strategy's
span would parse — yet parse_json_response raises the capture's decode
error (retaining only the capture), never reaching strategy 3.  The
claim's "first success wins among the three, else ParseFailure retaining
the input" is false here. -/
theorem parse_strategy_skip_cex :
    json_loadsL ("```json \x7b\"k\": \"\x7d ```\"\x7d ```").data = none ∧
    fenceSearch ("```json \x7b\"k\": \"\x7d ```\"\x7d ```").data =
      some ("\x7b\"k\": \"\x7d").data ∧
    braceSpan ("```json \x7b\"k\": \"\x7d ```\"\x7d ```").data =
      some ("\x7b\"k\": \"\x7d ```\"\x7d").data ∧
    json_loadsL ("\x7b\"k\": \"\x7d ```\"\x7d").data =
      some (Json.obj [("k", Json.str "\x7d ```")]) ∧
    parse_json_response "```json \x7b\"k\": \"\x7d ```\"\x7d ```" =
      Except.error (ParseErr.decodeFail "\x7b\"k\": \"\x7d") ∧
    parse_json_response "```json \x7b\"k\": \"\x7d ```\"\x7d ```" ≠
      Except.ok (Json.obj [("k", Json.str "\x7d ```")]) := by
  refine ⟨rfl, rfl, rfl, rfl, rfl, ?_⟩
  intro h
  have he : parse_json_response "```json \x7b\"k\": \"\x7d ```\"\x7d ```" =
      Except.error (ParseErr.decodeFail "\x7b\"k\": \"\x7d") := rfl
  rw [he] at h
  exact Except.noConfusion h

/-- C9 amended: whenever the whole-text parse fails and the fenced-block
pattern matches with a capture — the span from the brace after the fence
tag to the first right brace followed by whitespace and a closing fence —
that is not valid JSON, parse_json_response raises that decode error and
never attempts the third strategy, even if the third strategy would
succeed.  (A fenced well-formed JSON object with nested objects is NOT
such a case: the lazy group backtracks past inner braces, see the
counterexample theorem.) -/
theorem fence_decode_error_aborts :
    ∀ (r : String) (cap : List Char),
      json_loadsL r.data = none →
      fenceSearch r.data = some cap →
      json_loadsL cap = none →
      parse_json_response r = Except.error (ParseErr.decodeFail (String.mk cap)) ∧
      ∀ v, parse_json_response r ≠ Except.ok v := by
  intro r cap h1 h2 h3
  have he : parse_json_response r =
      Except.error (ParseErr.decodeFail (String.mk cap)) := by
    simp [parse_json_response, h1, h2, h3]
  exact ⟨he, fun v h => Except.noConfusion (he.symm.trans h)⟩

theorem fence_decode_error_aborts_witness :
    parse_json_response "```\x7bbad\x7d```" =
      Except.error (ParseErr.decodeFail "\x7bbad\x7d") :=
  (fence_decode_error_aborts "```\x7bbad\x7d```" ("\x7bbad\x7d").data rfl rfl rfl).1

/-- C9 counterexample: a fenced JSON object containing nested objects is
parsed successfully by the fence strategy — the lazily captured group
ends at the right brace followed by the closing fence, not at the first
inner right brace — refuting the claim's example that such inputs raise
from the fence step. -/
theorem fenced_nested_object_parses :
    parse_json_response "```json\n\x7b\"a\": \x7b\"b\": true\x7d\x7d\n```" =
      Except.ok (Json.obj [("a", Json.obj [("b", Json.bool true)])]) := rfl

theorem dropWhile_append_of_ne_nil {α : Type} (p : α → Bool) (a b : List α)
    (h : a.dropWhile p ≠ []) : (a ++ b).dropWhile p = a.dropWhile p ++ b := by
  induction a with
  | nil => exact absurd rfl h
  | cons x xs ih =>
    cases hx : p x with
    | true =>
      rw [List.dropWhile_cons_of_pos hx] at h
      simp only [List.cons_append, List.dropWhile_cons_of_pos hx]
      exact ih h
    | false =>
      have hnx : ¬ p x = true := by simp [hx]
      simp only [List.cons_append, List.dropWhile_cons_of_neg hnx]

theorem dropWhile_head_false {α : Type} (p : α → Bool) (l : List α) (c : α) (t : List α)
    (h : l.dropWhile p = c :: t) : p c = false := by
  induction l with
  | nil => simp at h
  | cons x xs ih =>
    cases hx : p x with
    | true => rw [List.dropWhile_cons_of_pos hx] at h; exact ih h
    | false =>
      rw [List.dropWhile_cons_of_neg (by simp [hx])] at h
      cases h
      exact hx

theorem mem_of_mem_dropWhile {α : Type} (p : α → Bool) (l : List α) (c : α)
    (h : c ∈ l.dropWhile p) : c ∈ l := by
  induction l with
  | nil => simp at h
  | cons x xs ih =>
    cases hx : p x with
    | true =>
      rw [List.dropWhile_cons_of_pos hx] at h
      exact List.mem_cons_of_mem _ (ih h)
    | false =>
      rw [List.dropWhile_cons_of_neg (by simp [hx])] at h
      exact h

theorem mem_dropWhile_of_neg {α : Type} (p : α → Bool) (l : List α) (c : α)
    (hc : p c = false) (h : c ∈ l) : c ∈ l.dropWhile p := by
  induction l with
  | nil => simp at h
  | cons x xs ih =>
    cases hx : p x with
    | true =>
      rw [List.dropWhile_cons_of_pos hx]
      rcases List.mem_cons.mp h with rfl | h2
      · rw [hx] at hc; exact absurd hc (by simp)
      · exact ih h2
    | false =>
      rw [List.dropWhile_cons_of_neg (by simp [hx])]
      exact h

theorem dropWhile_ne_nil_of_exists {α : Type} (p : α → Bool) (l : List α)
    (h : ∃ c ∈ l, p c = false) : l.dropWhile p ≠ [] := by
  intro hnil
  rcases h with ⟨c, hc, hpc⟩
  have := List.dropWhile_eq_nil_iff.mp hnil c hc
  rw [this] at hpc
  exact absurd hpc (by simp)

theorem scanIntPart_mem {cs d rest} {c : Char} (h : scanIntPart cs = some (d, rest))
    (hc : c ∈ cs) (hd : c.isDigit = false) : c ∈ rest := by
  cases cs with
  | nil => simp [scanIntPart] at h
  | cons x xs =>
    simp only [scanIntPart] at h
    by_cases hx0 : x = '0'
    · rw [if_pos hx0] at h
      injection h with h2
      injection h2 with _ h3
      subst h3
      rcases List.mem_cons.mp hc with rfl | h4
      · rw [hx0] at hd; simp at hd
      · exact h4
    · rw [if_neg hx0] at h
      by_cases hxd : x.isDigit
      · rw [if_pos hxd] at h
        injection h with h2
        injection h2 with _ h3
        subst h3
        exact mem_dropWhile_of_neg _ _ _ hd hc
      · rw [if_neg hxd] at h
        exact absurd h (by simp)

theorem scanFracPart_mem {cs} {c : Char} (hc : c ∈ cs) (hd : c.isDigit = false)
    (hdot : c ≠ '.') : c ∈ (scanFracPart cs).2 := by
  cases cs with
  | nil => simp at hc
  | cons x xs =>
    by_cases hx : x = '.'
    · subst hx
      simp only [scanFracPart]
      by_cases he : (xs.takeWhile Char.isDigit).isEmpty
      · rw [if_pos he]
        exact hc
      · rw [if_neg he]
        rcases List.mem_cons.mp hc with rfl | h2
        · exact absurd rfl hdot
        · exact mem_dropWhile_of_neg _ _ _ hd h2
    · have : scanFracPart (x :: xs) = ([], x :: xs) := by
        cases x <;> simp_all [scanFracPart]
      rw [this]
      exact hc

theorem scanExpDigits_mem {cs sg ds rest} {c : Char}
    (h : scanExpDigits cs = some (sg, ds, rest)) (hc : c ∈ cs)
    (hd : c.isDigit = false) (hp : c ≠ '+') (hm : c ≠ '-') : c ∈ rest := by
  cases cs with
  | nil =>
    have hnone : scanExpDigits ([] : List Char) = none := rfl
    rw [hnone] at h
    exact absurd h (by simp)
  | cons x xs =>
    by_cases hxp : x = '+'
    · subst hxp
      simp only [scanExpDigits] at h
      by_cases he : (xs.takeWhile Char.isDigit).isEmpty
      · rw [if_pos he] at h; exact absurd h (by simp)
      · rw [if_neg he] at h
        injection h with h2
        injection h2 with _ h3
        injection h3 with _ h4
        subst h4
        rcases List.mem_cons.mp hc with rfl | h5
        · exact absurd rfl hp
        · exact mem_dropWhile_of_neg _ _ _ hd h5
    · by_cases hxm : x = '-'
      · subst hxm
        simp only [scanExpDigits] at h
        by_cases he : (xs.takeWhile Char.isDigit).isEmpty
        · rw [if_pos he] at h; exact absurd h (by simp)
        · rw [if_neg he] at h
          injection h with h2
          injection h2 with _ h3
          injection h3 with _ h4
          subst h4
          rcases List.mem_cons.mp hc with rfl | h5
          · exact absurd rfl hm
          · exact mem_dropWhile_of_neg _ _ _ hd h5
      · have hdflt : scanExpDigits (x :: xs) =
            (if ((x :: xs).takeWhile Char.isDigit).isEmpty then none
             else some (false, (x :: xs).takeWhile Char.isDigit,
                        (x :: xs).dropWhile Char.isDigit)) := by
          cases x <;> simp_all [scanExpDigits]
        rw [hdflt] at h
        by_cases he : ((x :: xs).takeWhile Char.isDigit).isEmpty
        · rw [if_pos he] at h; exact absurd h (by simp)
        · rw [if_neg he] at h
          injection h with h2
          injection h2 with _ h3
          injection h3 with _ h4
          subst h4
          exact mem_dropWhile_of_neg _ _ _ hd hc

theorem scanExpPart_mem {cs} {c : Char} (hc : c ∈ cs) (hd : c.isDigit = false)
    (hp : c ≠ '+') (hm : c ≠ '-') (he : c ≠ 'e') (hE : c ≠ 'E') :
    c ∈ (scanExpPart cs).2.2 := by
  cases cs with
  | nil => simp at hc
  | cons x xs =>
    simp only [scanExpPart]
    by_cases hx : x = 'e' ∨ x = 'E'
    · rw [if_pos hx]
      cases hsd : scanExpDigits xs with
      | none => exact hc
      | some r =>
        rcases r with ⟨sg, ds, rest⟩
        have hcxs : c ∈ xs := by
          rcases List.mem_cons.mp hc with rfl | h2
          · rcases hx with rfl | rfl
            · exact absurd rfl he
            · exact absurd rfl hE
          · exact h2
        exact scanExpDigits_mem hsd hcxs hd hp hm
    · rw [if_neg hx]
      exact hc

theorem parseNumber_mem {cs v rest} {c : Char} (h : parseNumber cs = some (v, rest))
    (hc : c ∈ cs) (hd : c.isDigit = false) (hm : c ≠ '-') (hp : c ≠ '+')
    (hdot : c ≠ '.') (he : c ≠ 'e') (hE : c ≠ 'E') : c ∈ rest := by
  simp only [parseNumber] at h
  set pr := (match cs with
    | '-' :: r => (true, r)
    | _ => (false, cs)) with hpr
  have hcp : c ∈ pr.2 := by
    rw [hpr]
    cases cs with
    | nil => simp at hc
    | cons x xs =>
      by_cases hx : x = '-'
      · subst hx
        simp only []
        rcases List.mem_cons.mp hc with rfl | h2
        · exact absurd rfl hm
        · exact h2
      · have : (match x :: xs with
            | '-' :: r => (true, r)
            | _ => (false, x :: xs)) = (false, x :: xs) := by
          cases x <;> simp_all
        rw [this]
        exact hc
  cases hint : scanIntPart pr.2 with
  | none => rw [hint] at h; exact absurd h (by simp)
  | some r1 =>
    rcases r1 with ⟨intD, cs2⟩
    rw [hint] at h
    simp only [] at h
    have hc2 : c ∈ cs2 := scanIntPart_mem hint hcp hd
    have hc3 : c ∈ (scanFracPart cs2).2 := scanFracPart_mem hc2 hd hdot
    have hc4 : c ∈ (scanExpPart (scanFracPart cs2).2).2.2 :=
      scanExpPart_mem hc3 hd hp hm he hE
    injection h with h2
    injection h2 with _ h3
    subst h3
    exact hc4

theorem parseValue_none_of_badStart (f : Nat) (c : Char) (rest : List Char)
    (h1 : c ≠ '{') (h2 : c ≠ '[') (h3 : c ≠ '"') (h4 : c ≠ 't') (h5 : c ≠ 'f')
    (h6 : c ≠ 'n') (h7 : c ≠ '-') (h8 : c.isDigit = false) :
    parseValue f (c :: rest) = none := by
  cases f with
  | zero => rfl
  | succ f2 =>
    simp [parseValue, h1, h2, h3, h4, h5, h6, h7, h8]

theorem parseValue_stuck (f : Nat) (c : Char) (rest : List Char)
    (h1 : c ≠ '{') (h2 : c ≠ '[') (h3 : c ≠ '"') (hbr : '{' ∈ rest) :
    parseValue f (c :: rest) = none ∨
    ∃ v rem, parseValue f (c :: rest) = some (v, rem) ∧ '{' ∈ rem := by
  cases f with
  | zero => exact Or.inl rfl
  | succ f2 =>
    by_cases h4 : c = 't'
    · subst h4
      simp only [parseValue, reduceIte]
      cases hp : ("rue".data).isPrefixOf rest with
      | false => simp
      | true =>
        right
        refine ⟨Json.bool true, rest.drop 3, by simp, ?_⟩
        rcases List.isPrefixOf_iff_prefix.mp hp with ⟨t2, ht⟩
        rw [← ht]
        have hdl : ("rue".data ++ t2).drop 3 = t2 := rfl
        rw [hdl]
        rw [← ht] at hbr
        rcases List.mem_append.mp hbr with hin | hin
        · exact absurd hin (by decide)
        · exact hin
    · by_cases h5 : c = 'f'
      · subst h5
        simp only [parseValue, reduceIte]
        cases hp : ("alse".data).isPrefixOf rest with
        | false => simp
        | true =>
          right
          refine ⟨Json.bool false, rest.drop 4, by simp, ?_⟩
          rcases List.isPrefixOf_iff_prefix.mp hp with ⟨t2, ht⟩
          rw [← ht]
          have hdl : ("alse".data ++ t2).drop 4 = t2 := rfl
          rw [hdl]
          rw [← ht] at hbr
          rcases List.mem_append.mp hbr with hin | hin
          · exact absurd hin (by decide)
          · exact hin
      · by_cases h6 : c = 'n'
        · subst h6
          simp only [parseValue, reduceIte]
          cases hp : ("ull".data).isPrefixOf rest with
          | false => simp
          | true =>
            right
            refine ⟨Json.null, rest.drop 3, by simp, ?_⟩
            rcases List.isPrefixOf_iff_prefix.mp hp with ⟨t2, ht⟩
            rw [← ht]
            have hdl : ("ull".data ++ t2).drop 3 = t2 := rfl
            rw [hdl]
            rw [← ht] at hbr
            rcases List.mem_append.mp hbr with hin | hin
            · exact absurd hin (by decide)
            · exact hin
        · by_cases h7 : c = '-' ∨ c.isDigit = true
          · have hred : parseValue (f2 + 1) (c :: rest) = parseNumber (c :: rest) := by
              simp only [parseValue]
              rw [if_neg h1, if_neg h2, if_neg h3, if_neg h4, if_neg h5, if_neg h6,
                if_pos (by rcases h7 with h7a | h7a <;> simp [h7a])]
            rw [hred]
            cases hn : parseNumber (c :: rest) with
            | none => exact Or.inl rfl
            | some r =>
              rcases r with ⟨v, rem⟩
              right
              refine ⟨v, rem, rfl, ?_⟩
              have hcmem : '{' ∈ c :: rest := List.mem_cons_of_mem _ hbr
              exact parseNumber_mem hn hcmem (by decide) (by decide) (by decide)
                (by decide) (by decide) (by decide)
          · push_neg at h7
            exact Or.inl (parseValue_none_of_badStart _ _ _ h1 h2 h3 h4 h5 h6 h7.1
              (by simpa using h7.2))

theorem noPrematureClose_spec {cs : List Char} (h : noPrematureClose cs = true) :
    ∀ p, p + 1 < cs.length → cs.get? p = some '}' →
      (cs.drop (p + 1)).all reWs = false := by
  intro p hlt hget
  have hp := List.all_eq_true.mp h p (List.mem_range.mpr (by omega))
  simp only [Bool.or_eq_true, decide_eq_true_eq, Bool.not_eq_true',
    decide_eq_false_iff_not] at hp
  rcases hp with (h1 | h2) | h3
  · omega
  · exact absurd hget h2
  · exact h3

theorem loads_head_btick_none (rest : List Char) :
    json_loadsL (btick :: rest) = none := by
  unfold json_loadsL
  have hdw : (btick :: rest).dropWhile jsonWs = btick :: rest := rfl
  rw [hdw, parseValue_none_of_badStart _ _ _ (by decide) (by decide) (by decide)
    (by decide) (by decide) (by decide) (by decide) (by decide)]

theorem loads_concat_none (pl mid : List Char)
    (hex : ∃ c ∈ pl, jsonWs c = false)
    (hsf : ∀ c ∈ pl, structuralFree c = true)
    (hbr : '{' ∈ mid) :
    json_loadsL (pl ++ mid) = none := by
  have hne : pl.dropWhile jsonWs ≠ [] := dropWhile_ne_nil_of_exists _ _ hex
  cases hdw : pl.dropWhile jsonWs with
  | nil => exact absurd hdw hne
  | cons c0 t0 =>
    have hws : jsonWs c0 = false := dropWhile_head_false _ _ _ _ hdw
    have hc0 : c0 ∈ pl := mem_of_mem_dropWhile _ _ _ (hdw ▸ List.mem_cons_self _ _)
    have hs := hsf c0 hc0
    have hs1 : c0 ≠ '{' := by intro he; rw [he] at hs; exact absurd hs (by decide)
    have hs2 : c0 ≠ '[' := by intro he; rw [he] at hs; exact absurd hs (by decide)
    have hs3 : c0 ≠ '"' := by intro he; rw [he] at hs; exact absurd hs (by decide)
    have hdw2 : (pl ++ mid).dropWhile jsonWs = c0 :: (t0 ++ mid) := by
      rw [dropWhile_append_of_ne_nil _ _ _ hne, hdw]
      rfl
    unfold json_loadsL
    rw [hdw2]
    have hbr2 : '{' ∈ t0 ++ mid := List.mem_append.mpr (Or.inr hbr)
    rcases parseValue_stuck ((pl ++ mid).length + 1) c0 (t0 ++ mid) hs1 hs2 hs3 hbr2
      with hnone | ⟨v, rem, hsome, hmem⟩
    · rw [hnone]
    · rw [hsome]
      have hjall : rem.all jsonWs = false := by
        cases hja : rem.all jsonWs
        · rfl
        · have := List.all_eq_true.mp hja ('{' : Char) hmem
          exact absurd this (by decide)
      show (if rem.all jsonWs = true then some v else none) = none
      rw [hjall]
      simp

theorem captureFrom_exact : ∀ (l tail : List Char),
    l ≠ [] → l.getLast? = some '}' → btick ∉ l →
    (∀ p, p + 1 < l.length → l.get? p = some '}' →
      (l.drop (p + 1)).all reWs = false) →
    ("```".data).isPrefixOf (tail.dropWhile reWs) = true →
    captureFrom (l ++ tail) = some l := by
  intro l
  induction l with
  | nil => intro tail h; exact absurd rfl h
  | cons c l2 ih =>
    intro tail _ hlast hbt hclose hfence
    cases l2 with
    | nil =>
      have hc : c = '}' := by
        simp only [List.getLast?_singleton, Option.some.injEq] at hlast
        exact hlast
      subst hc
      show captureFrom ('}' :: tail) = some ['}']
      have hstep : captureFrom ('}' :: tail) =
          if ("```".data).isPrefixOf (tail.dropWhile reWs) = true then some ['}']
          else (captureFrom tail).map (fun r => '}' :: r) := rfl
      rw [hstep, if_pos hfence]
    | cons c2 l3 =>
      have hlast2 : (c2 :: l3).getLast? = some '}' := by
        rwa [List.getLast?_cons_cons] at hlast
      have hbt2 : btick ∉ c2 :: l3 := fun hm => hbt (List.mem_cons_of_mem _ hm)
      have hclose2 : ∀ p, p + 1 < (c2 :: l3).length → (c2 :: l3).get? p = some '}' →
          ((c2 :: l3).drop (p + 1)).all reWs = false := by
        intro p hp hg
        have := hclose (p + 1) (by simp at hp ⊢; omega) (by simpa using hg)
        simpa using this
      have ihres : captureFrom ((c2 :: l3) ++ tail) = some (c2 :: l3) :=
        ih tail (by simp) hlast2 hbt2 hclose2 hfence
      have ihres2 : captureFrom (c2 :: (l3 ++ tail)) = some (c2 :: l3) := by
        simpa [List.cons_append] using ihres
      by_cases hc : c = '}'
      · subst hc
        have h0 : ((c2 :: l3).drop 0).all reWs = false := by
          have := hclose 0 (by simp) (by simp)
          simpa using this
        have h0b : (c2 :: l3).all reWs = false := by simpa using h0
        have hne : (c2 :: l3).dropWhile reWs ≠ [] := by
          apply dropWhile_ne_nil_of_exists
          rcases List.all_eq_false.mp h0b with ⟨x, hx, hxw⟩
          exact ⟨x, hx, by simpa using hxw⟩
        cases hdw : (c2 :: l3).dropWhile reWs with
        | nil => exact absurd hdw hne
        | cons d t2 =>
          have hdn : d ∈ c2 :: l3 :=
            mem_of_mem_dropWhile _ _ _ (hdw ▸ List.mem_cons_self _ _)
          have hdb : d ≠ btick := fun he => hbt2 (he ▸ hdn)
          have hdw2 : (c2 :: (l3 ++ tail)).dropWhile reWs = d :: (t2 ++ tail) := by
            have hstep := dropWhile_append_of_ne_nil reWs (c2 :: l3) tail hne
            rw [hdw] at hstep
            simpa [List.cons_append] using hstep
          have hfc : ("```".data).isPrefixOf ((c2 :: (l3 ++ tail)).dropWhile reWs) = false := by
            rw [hdw2]
            have hb : (btick == d) = false :=
              beq_eq_false_iff_ne.mpr (fun he => hdb he.symm)
            show ((btick == d) && ((btick :: btick :: []).isPrefixOf (t2 ++ tail))) = false
            rw [hb]
            rfl
          show captureFrom ('}' :: c2 :: (l3 ++ tail)) = some ('}' :: c2 :: l3)
          have hstep2 : captureFrom ('}' :: c2 :: (l3 ++ tail)) =
              if ("```".data).isPrefixOf ((c2 :: (l3 ++ tail)).dropWhile reWs) = true
              then some ['}']
              else (captureFrom (c2 :: (l3 ++ tail))).map (fun r => '}' :: r) := rfl
          rw [hstep2, if_neg (by rw [hfc]; exact Bool.false_ne_true), ihres2]
          rfl
      · show captureFrom (c :: c2 :: (l3 ++ tail)) = some (c :: c2 :: l3)
        have hstep3 : captureFrom (c :: c2 :: (l3 ++ tail)) =
            if c = '}' then
              (if ("```".data).isPrefixOf ((c2 :: (l3 ++ tail)).dropWhile reWs) = true
               then some [c]
               else (captureFrom (c2 :: (l3 ++ tail))).map (fun r => c :: r))
            else (captureFrom (c2 :: (l3 ++ tail))).map (fun r => c :: r) := rfl
        rw [hstep3, if_neg hc, ihres2]
        rfl

theorem fenceSearch_wrap (X : String) (xs : List Char)
    (hX : X.data = '{' :: xs)
    (hcap : captureFrom (xs ++ ('\n' :: "```".data)) = some xs) :
    fenceSearch (wrap_in_fence X).data = some X.data := by
  have hdata : (wrap_in_fence X).data =
      btick :: btick :: btick :: 'j' :: 's' :: 'o' :: 'n' :: '\n' ::
        ('{' :: (xs ++ ('\n' :: "```".data))) := by
    show ("```json\n" ++ X ++ "\n```").data = _
    rw [String.data_append, String.data_append, List.append_assoc, hX]
    rfl
  rw [hdata]
  have htry : tryFenceAt (btick :: btick :: btick :: 'j' :: 's' :: 'o' :: 'n' :: '\n' ::
        ('{' :: (xs ++ ('\n' :: "```".data)))) =
      (captureFrom (xs ++ ('\n' :: "```".data))).map (fun cap => '{' :: cap) := rfl
  show (match tryFenceAt (btick :: btick :: btick :: 'j' :: 's' :: 'o' :: 'n' :: '\n' ::
        ('{' :: (xs ++ ('\n' :: "```".data)))) with
    | some cap => some cap
    | none => fenceSearch (btick :: btick :: 'j' :: 's' :: 'o' :: 'n' :: '\n' ::
        ('{' :: (xs ++ ('\n' :: "```".data))))) = some X.data
  rw [htry, hcap]
  show some ('{' :: xs) = some X.data
  rw [hX]

theorem isPrefixOf_bticks_false {cs : List Char} (h : btick ∉ cs) :
    ("```".data).isPrefixOf cs = false := by
  cases cs with
  | nil => rfl
  | cons c rest =>
    have hc : c ≠ btick := fun he => h (he ▸ List.mem_cons_self _ _)
    have hb : (btick == c) = false :=
      beq_eq_false_iff_ne.mpr (fun he => hc he.symm)
    show ((btick == c) && ((btick :: btick :: []).isPrefixOf rest)) = false
    rw [hb]
    rfl

theorem tryFenceAt_none {cs : List Char} (h : btick ∉ cs) : tryFenceAt cs = none := by
  unfold tryFenceAt
  rw [if_neg (by rw [isPrefixOf_bticks_false h]; exact Bool.false_ne_true)]

theorem fenceSearch_none : ∀ {cs : List Char}, btick ∉ cs → fenceSearch cs = none := by
  intro cs
  induction cs with
  | nil => intro _; rfl
  | cons c rest ih =>
    intro h
    have h2 : btick ∉ rest := fun hm => h (List.mem_cons_of_mem _ hm)
    show (match tryFenceAt (c :: rest) with
      | some cap => some cap
      | none => fenceSearch rest) = none
    rw [tryFenceAt_none h]
    exact ih h2

theorem takeToLastClose_none : ∀ {l : List Char}, '}' ∉ l → takeToLastClose l = none := by
  intro l
  induction l with
  | nil => intro _; rfl
  | cons c rest ih =>
    intro h
    have h2 : '}' ∉ rest := fun hm => h (List.mem_cons_of_mem _ hm)
    have hc : c ≠ '}' := fun he => h (he ▸ List.mem_cons_self _ _)
    simp only [takeToLastClose, ih h2]
    rw [if_neg (fun he => hc he)]

theorem takeToLastClose_concat : ∀ (xs pr : List Char), '}' ∉ pr →
    takeToLastClose (xs ++ '}' :: pr) = some (xs ++ ['}']) := by
  intro xs
  induction xs with
  | nil =>
    intro pr h
    have hstep : takeToLastClose (([] : List Char) ++ '}' :: pr) =
        match takeToLastClose pr with
        | some body => some ('}' :: body)
        | none => if '}' = '}' then some ['}'] else none := rfl
    rw [hstep, takeToLastClose_none h]
    simp
  | cons x xs2 ih =>
    intro pr h
    have hstep : takeToLastClose ((x :: xs2) ++ '}' :: pr) =
        match takeToLastClose (xs2 ++ '}' :: pr) with
        | some body => some (x :: body)
        | none => if x = '}' then some [x] else none := rfl
    rw [hstep, ih pr h]
    rfl

theorem braceSpan_skip : ∀ (a r : List Char), '{' ∉ a →
    braceSpan (a ++ r) = braceSpan r := by
  intro a
  induction a with
  | nil => intro r _; rfl
  | cons x a2 ih =>
    intro r h
    have hx : x ≠ '{' := fun he => h (he ▸ List.mem_cons_self _ _)
    have h2 : '{' ∉ a2 := fun hm => h (List.mem_cons_of_mem _ hm)
    simp only [List.cons_append, braceSpan]
    rw [if_neg hx]
    exact ih r h2

theorem strData_append (s t : String) : (s ++ t).data = s.data ++ t.data := rfl

/-- C2 amended: for a valid JSON object text X that begins with a left
brace, ends with a right brace, contains no backtick, and in which no
right brace other than the final character is followed by whitespace
only, and for prose containing none of the structural characters
braces/brackets/quote/backtick and either empty or not purely
whitespace, the extractor recovers the same payload from X bare, from X
wrapped in a ```json fence, and from prose ++ X ++ prose.  (The original
unrestricted claim fails, see the counterexample theorem: a right brace
inside a string value, followed by whitespace and backticks, derails the
lazy fence capture.) -/
theorem extraction_invariance :
    ∀ (X prose : String) (v : Json),
      json_loads X = some v →
      X.data.head? = some '{' →
      X.data.getLast? = some '}' →
      btick ∉ X.data →
      noPrematureClose X.data = true →
      (∀ c ∈ prose.data, structuralFree c = true) →
      (prose.data = [] ∨ ∃ c ∈ prose.data, jsonWs c = false) →
      parse_json_response X = Except.ok v ∧
      parse_json_response (wrap_in_fence X) = Except.ok v ∧
      parse_json_response (prose ++ X ++ prose) = Except.ok v := by
  intro X prose v hX hhead hlast hbt hnpc hpr hprws
  have hXl : json_loadsL X.data = some v := hX
  rcases List.eq_nil_or_concat X.data with hnil | ⟨l2, a, hconc⟩
  · rw [hnil] at hhead; simp at hhead
  rw [List.concat_eq_append] at hconc
  have ha : a = '}' := by
    rw [hconc, List.getLast?_concat] at hlast
    injection hlast
  subst ha
  obtain ⟨mid, hmid⟩ : ∃ mid, X.data = '{' :: (mid ++ ['}']) := by
    cases l2 with
    | nil => rw [hconc] at hhead; simp at hhead
    | cons c l3 =>
      rw [hconc] at hhead
      simp only [List.cons_append, List.head?_cons, Option.some.injEq] at hhead
      exact ⟨l3, by rw [hconc, hhead]; rfl⟩
  have hbt_xs : btick ∉ mid ++ ['}'] := fun hm =>
    hbt (by rw [hmid]; exact List.mem_cons_of_mem _ hm)
  have hclose_xs : ∀ p, p + 1 < (mid ++ ['}']).length →
      (mid ++ ['}']).get? p = some '}' →
      ((mid ++ ['}']).drop (p + 1)).all reWs = false := by
    intro p hp hg
    have hres := noPrematureClose_spec hnpc (p + 1)
      (by rw [hmid]; simp only [List.length_cons]; omega)
      (by rw [hmid]; simpa using hg)
    rw [hmid] at hres
    simpa using hres
  have hcap : captureFrom ((mid ++ ['}']) ++ ('\n' :: "```".data)) = some (mid ++ ['}']) :=
    captureFrom_exact _ _ (by simp) (List.getLast?_concat _) hbt_xs hclose_xs rfl
  have hfence : fenceSearch (wrap_in_fence X).data = some X.data :=
    fenceSearch_wrap X (mid ++ ['}']) hmid hcap
  have hwd : (wrap_in_fence X).data =
      btick :: (btick :: btick :: 'j' :: 's' :: 'o' :: 'n' :: '\n' ::
        (X.data ++ ('\n' :: "```".data))) := by
    show ("```json\n" ++ X ++ "\n```").data = _
    rw [strData_append, strData_append, List.append_assoc]
    rfl
  have hwl_none : json_loadsL (wrap_in_fence X).data = none := by
    rw [hwd]
    exact loads_head_btick_none _
  refine ⟨by simp [parse_json_response, hXl], ?_, ?_⟩
  · simp [parse_json_response, hwl_none, hfence, hXl]
  · rcases hprws with hpd | hex
    · have hdeq : (prose ++ X ++ prose).data = X.data := by
        rw [strData_append, strData_append, hpd]
        simp
      simp [parse_json_response, hdeq, hXl]
    · have hcat : (prose ++ X ++ prose).data =
          prose.data ++ (X.data ++ prose.data) := by
        rw [strData_append, strData_append, List.append_assoc]
      have hbrX : '{' ∈ X.data ++ prose.data := by
        rw [hmid]
        exact List.mem_cons_self _ _
      have hnone : json_loadsL (prose ++ X ++ prose).data = none := by
        rw [hcat]
        exact loads_concat_none _ _ hex hpr hbrX
      have hnbt : btick ∉ (prose ++ X ++ prose).data := by
        rw [hcat]
        intro hm
        rcases List.mem_append.mp hm with h1 | h2
        · exact absurd (hpr _ h1) (by decide)
        · rcases List.mem_append.mp h2 with h3 | h4
          · exact hbt h3
          · exact absurd (hpr _ h4) (by decide)
      have hfsn : fenceSearch (prose ++ X ++ prose).data = none := fenceSearch_none hnbt
      have hnb1 : '{' ∉ prose.data := fun hm => absurd (hpr _ hm) (by decide)
      have hnb2 : '}' ∉ prose.data := fun hm => absurd (hpr _ hm) (by decide)
      have hbs : braceSpan (prose ++ X ++ prose).data = some X.data := by
        rw [hcat, braceSpan_skip _ _ hnb1]
        have hform : X.data ++ prose.data = '{' :: (mid ++ '}' :: prose.data) := by
          rw [hmid]
          simp [List.cons_append, List.append_assoc]
        rw [hform]
        have hstep : braceSpan ('{' :: (mid ++ '}' :: prose.data)) =
            match takeToLastClose (mid ++ '}' :: prose.data) with
            | some body => some ('{' :: body)
            | none => braceSpan (mid ++ '}' :: prose.data) := rfl
        rw [hstep, takeToLastClose_concat mid prose.data hnb2, hmid]
      have hnone2 : json_loadsL (prose.data ++ (X.data ++ prose.data)) = none := by
        rw [← hcat]; exact hnone
      have hfsn2 : fenceSearch (prose.data ++ (X.data ++ prose.data)) = none := by
        rw [← hcat]; exact hfsn
      have hbs2 : braceSpan (prose.data ++ (X.data ++ prose.data)) = some X.data := by
        rw [← hcat]; exact hbs
      simp [parse_json_response, hnone, hfsn, hbs, hnone2, hfsn2, hbs2, hXl]

theorem extraction_invariance_witness :
    parse_json_response "\x7b\"a\": \"b\"\x7d" =
      Except.ok (Json.obj [("a", Json.str "b")]) ∧
    parse_json_response (wrap_in_fence "\x7b\"a\": \"b\"\x7d") =
      Except.ok (Json.obj [("a", Json.str "b")]) ∧
    parse_json_response ("Here is the JSON: " ++ "\x7b\"a\": \"b\"\x7d" ++
        "Here is the JSON: ") =
      Except.ok (Json.obj [("a", Json.str "b")]) :=
  extraction_invariance "\x7b\"a\": \"b\"\x7d" "Here is the JSON: "
    (Json.obj [("a", Json.str "b")]) rfl rfl rfl (by decide) (by decide)
    (by decide) (Or.inr (by decide))

/-- C2 counterexample: X = \x7b"a": "\x7d ```"\x7d is the text of a valid
JSON object, but wrapping it in a ```json fence makes the lazily
captured group stop at the right brace inside the string value (it is
followed by whitespace and backticks), and the extractor raises a decode
error instead of recovering the payload — extract(wrap_in_fence(X)) is
not extract(X). -/
theorem extraction_fence_cex :
    json_loads "\x7b\"a\": \"\x7d ```\"\x7d" =
      some (Json.obj [("a", Json.str "\x7d ```")]) ∧
    parse_json_response "\x7b\"a\": \"\x7d ```\"\x7d" =
      Except.ok (Json.obj [("a", Json.str "\x7d ```")]) ∧
    parse_json_response (wrap_in_fence "\x7b\"a\": \"\x7d ```\"\x7d") =
      Except.error (ParseErr.decodeFail "\x7b\"a\": \"\x7d") ∧
    parse_json_response (wrap_in_fence "\x7b\"a\": \"\x7d ```\"\x7d") ≠
      Except.ok (Json.obj [("a", Json.str "\x7d ```")]) := by
  refine ⟨rfl, rfl, rfl, ?_⟩
  intro h
  have he : parse_json_response (wrap_in_fence "\x7b\"a\": \"\x7d ```\"\x7d") =
      Except.error (ParseErr.decodeFail "\x7b\"a\": \"\x7d") := rfl
  rw [he] at h
  exact Except.noConfusion h

end EW
